import Mathlib

/-!
Shallow embedding of the tree-sitter parsing core bundled by
`Sources/TreeSitter/lib.c`.  The repository ships only the umbrella
translation unit (which includes `src/parser.c`, `src/subtree.c`,
`src/tree_cursor.c`, `src/query.c`, `src/stack.c`,
`src/get_changed_ranges.c`, ...) together with the grammar entry-point
headers; the included implementation files are not part of the sources,
so every definition below is modelled from the specification of those
modules and marked accordingly.
-/

namespace TreeSitter

/-- Modelled from the spec: Token flags of the data model (§3) — a token
carries the flags {error, extra, missing}; the implementation in the
missing `src/subtree.c` stores them on each node. -/
structure TokenFlags where
  isError : Bool
  isExtra : Bool
  isMissing : Bool
deriving DecidableEq, Repr

/-- Modelled from the spec: a Subtree (§3, missing `src/subtree.c`) is an
immutable node — a leaf token with a byte length, or a production with a
symbol id and an ordered sequence of child Subtrees. -/
inductive Subtree where
  | leaf (sym : Nat) (len : Nat) (flags : TokenFlags) : Subtree
  | node (sym : Nat) (flags : TokenFlags) (children : List Subtree) : Subtree

mutual

/-- Boolean structural equality of Subtrees: the pure-model analogue of
the shared-ownership identity test used by the missing
`src/get_changed_ranges.c` (§4.8). -/
def Subtree.beq : Subtree → Subtree → Bool
  | .leaf s l f, .leaf s' l' f' => s == s' && l == l' && decide (f = f')
  | .node s f cs, .node s' f' cs' => s == s' && decide (f = f') && beqList cs cs'
  | _, _ => false

/-- Boolean structural equality of Subtree lists. -/
def beqList : List Subtree → List Subtree → Bool
  | [], [] => true
  | c :: cs, d :: ds => Subtree.beq c d && beqList cs ds
  | _, _ => false

end

mutual

theorem Subtree.beq_iff : ∀ a b : Subtree, (Subtree.beq a b = true) ↔ a = b
  | .leaf _ _ _, .leaf _ _ _ => by simp [Subtree.beq, and_assoc]
  | .leaf _ _ _, .node _ _ _ => by simp [Subtree.beq]
  | .node _ _ _, .leaf _ _ _ => by simp [Subtree.beq]
  | .node _ _ cs, .node _ _ cs' => by
      have h := beqList_iff cs cs'
      simp [Subtree.beq, h, and_assoc]

theorem beqList_iff : ∀ as bs : List Subtree, (beqList as bs = true) ↔ as = bs
  | [], [] => by simp [beqList]
  | [], _ :: _ => by simp [beqList]
  | _ :: _, [] => by simp [beqList]
  | a :: as, b :: bs => by
      have h1 := Subtree.beq_iff a b
      have h2 := beqList_iff as bs
      simp [beqList, h1, h2]

end

instance : DecidableEq Subtree := fun a b => decidable_of_iff _ (Subtree.beq_iff a b)

mutual

/-- Modelled from the spec: a node's byte span equals the sum of its
children's spans (§3 invariant, computed at build time by the missing
`src/subtree.c`). -/
def Subtree.span : Subtree → Nat
  | .leaf _ len _ => len
  | .node _ _ cs => spanList cs

/-- Total span of a list of sibling Subtrees. -/
def spanList : List Subtree → Nat
  | [] => 0
  | c :: cs => Subtree.span c + spanList cs

end

/-- Symbol id of a Subtree. -/
def tokSym : Subtree → Nat
  | .leaf s _ _ => s
  | .node s _ _ => s

/-- Child list of a Subtree (empty for a leaf). -/
def Subtree.childrenOf : Subtree → List Subtree
  | .leaf _ _ _ => []
  | .node _ _ cs => cs

mutual

/-- Modelled from the spec: the ordered sequence of lexed tokens a
Subtree was built from — its leaves, with the parse-time `extra` flag
cleared so only the lexer-determined data remains (§4.2, §4.4 of the
missing `src/subtree.c` / `src/parser.c`). -/
def Subtree.leafTokens : Subtree → List Subtree
  | .leaf s len f => [.leaf s len ⟨f.isError, false, f.isMissing⟩]
  | .node _ _ cs => leafTokensList cs

/-- Leaf tokens of a list of sibling Subtrees, in order. -/
def leafTokensList : List Subtree → List Subtree
  | [] => []
  | c :: cs => Subtree.leafTokens c ++ leafTokensList cs

end

/-- Modelled from the spec: one entry of the Grammar's action table
(§4.4, missing `src/parser.c`): SHIFT, REDUCE, or no valid action
(which triggers error recovery). -/
inductive Action where
  | shift (next : Nat) : Action
  | reduce (sym : Nat) (count : Nat) (next : Nat) : Action
  | reject : Action
deriving DecidableEq, Repr

/-- Modelled from the spec: the opaque immutable Grammar descriptor
(§3, §6) consumed through fixed read accessors — a lexical
classification table, the set of recognized lexical symbols, and the
state/action table `action(state, symbol)`. -/
structure Grammar where
  lexClass : Nat → Nat
  validSym : Nat → Bool
  action : Nat → Nat → Action
  startState : Nat
  rootSym : Nat

/-- Modelled from the spec: the Lexer (§4.1, missing `src/lexer.c`)
classifies each input byte into a token; an unrecognized byte is
recorded as an error-flagged token, never as a failure. -/
def lexByte (g : Grammar) (b : Nat) : Subtree :=
  Subtree.leaf (g.lexClass b) 1 ⟨!g.validSym (g.lexClass b), false, false⟩

/-- Tokenization of a whole text: the Lexer applied at every position. -/
def lexText (g : Grammar) (text : List Nat) : List Subtree :=
  text.map (lexByte g)

/-- Parse-stack entries pair the pushed Subtree with the parse state
entered after the push; the current state is the top entry's state, or
the Grammar's start state on an empty stack (§4.3). -/
def curState (g : Grammar) : List (Subtree × Nat) → Nat
  | [] => g.startState
  | (_, s) :: _ => s

/-- Modelled from the spec: the REDUCE transitions of the Parser
(§4.4): pop `count` children off the stack, combine them into a new
Subtree, and push it; repeated while the action table keeps demanding a
reduction, with fuel bounding malformed tables (§1: malformed grammars
get only minimal shape checks). -/
def applyReductions (g : Grammar) : Nat → List (Subtree × Nat) → Nat → List (Subtree × Nat)
  | 0, stk, _ => stk
  | fuel + 1, stk, look =>
    match g.action (curState g stk) look with
    | .reduce sym k next =>
      if 0 < k ∧ k ≤ stk.length then
        applyReductions g fuel
          ((Subtree.node sym ⟨false, false, false⟩ (((stk.take k).map Prod.fst).reverse), next)
            :: stk.drop k) look
      else stk
    | _ => stk

/-- Modelled from the spec: error recovery marks a skipped token as
EXTRA (§4.3 — synthesize an EXTRA marker and continue; parsing never
aborts on malformed input). -/
def markExtra : Subtree → Subtree
  | .leaf s len f => .leaf s len ⟨f.isError, true, f.isMissing⟩
  | t => t

/-- Modelled from the spec: the Cancelled signal (§5, §7) — the only
failure `parse` can propagate, raised when the externally supplied
operation-count budget is exceeded. -/
inductive Cancelled where
  | cancelled : Cancelled
deriving DecidableEq, Repr

/-- Modelled from the spec: the Parser's main loop (§4.4, missing
`src/parser.c`): lookahead is fetched lazily one token at a time; for
each token the pending reductions fire, then the token is shifted, or —
when no valid action exists — skipped as an error-recovery EXTRA token;
the externally supplied operation-count budget is polled each iteration
and exhausting it fails with Cancelled (§5). -/
def parseSteps (g : Grammar) :
    Option Nat → List Subtree → List (Subtree × Nat) →
    Except Cancelled (List (Subtree × Nat))
  | _, [], stk => .ok stk
  | some 0, _ :: _, _ => .error .cancelled
  | bud, tok :: rest, stk =>
    let bud' := bud.map (fun n => n - 1)
    let stk1 := applyReductions g (stk.length + 1) stk (tokSym tok)
    match g.action (curState g stk1) (tokSym tok) with
    | .shift n => parseSteps g bud' rest ((tok, n) :: stk1)
    | _ => parseSteps g bud' rest ((markExtra tok, curState g stk1) :: stk1)

/-- The Parser's main loop without a cancellation budget: the reference
run used to state that a budget-free parse always succeeds. -/
def parseRun (g : Grammar) : List Subtree → List (Subtree × Nat) → List (Subtree × Nat)
  | [], stk => stk
  | tok :: rest, stk =>
    let stk1 := applyReductions g (stk.length + 1) stk (tokSym tok)
    match g.action (curState g stk1) (tokSym tok) with
    | .shift n => parseRun g rest ((tok, n) :: stk1)
    | _ => parseRun g rest ((markExtra tok, curState g stk1) :: stk1)

/-- Modelled from the spec: at end of input the remaining stack entries
are assembled, in order, into the root Subtree (§4.4 ACCEPT). -/
def finishStack (g : Grammar) (stk : List (Subtree × Nat)) : Subtree :=
  Subtree.node g.rootSym ⟨false, false, false⟩ ((stk.map Prod.fst).reverse)

/-- Modelled from the spec: a Tree owns one root Subtree plus the source
length used to validate ranges (§3, §4.5, missing `src/tree.c`). -/
structure Tree where
  root : Subtree
  sourceLen : Nat
deriving DecidableEq

/-- Modelled from the spec: `parse(sourceText, budget) → Tree |
Cancelled` (§6): lex the text, drive the main loop, and wrap the
surviving stack into a Tree recording the source length. -/
def parse (g : Grammar) (text : List Nat) (bud : Option Nat) : Except Cancelled Tree :=
  (parseSteps g bud (lexText g text) []).map
    (fun stk => ⟨finishStack g stk, text.length⟩)

/-- Modelled from the spec: an Edit (§3) — (start byte, old end byte,
new end byte) describing one text mutation. -/
structure Edit where
  startByte : Nat
  oldEndByte : Nat
  newEndByte : Nat
deriving DecidableEq

/-- Modelled from the spec: incremental mode of the Parser (§4.4,
missing `src/parser.c`): the previous Tree's token subtrees lying
entirely outside the edited range are reused without re-lexing, only
the bytes inside the edited range `[startByte, newEndByte)` of the new
text are re-lexed, and the main loop is re-driven over the combined
token sequence; the new source length comes from the previous Tree's
bookkeeping patched by the Edit (§4.5). -/
def incrementalParse (g : Grammar) (newText : List Nat) (prev : Tree) (e : Edit) :
    Except Cancelled Tree :=
  let reusedPre := prev.root.leafTokens.take e.startByte
  let reusedSuf := prev.root.leafTokens.drop e.oldEndByte
  let fresh := lexText g ((newText.drop e.startByte).take (e.newEndByte - e.startByte))
  let newLen := prev.sourceLen - (e.oldEndByte - e.startByte) + (e.newEndByte - e.startByte)
  (parseSteps g none (reusedPre ++ fresh ++ reusedSuf) []).map
    (fun stk => ⟨finishStack g stk, newLen⟩)

mutual

/-- Modelled from the spec: `getChangedRanges` (§4.8, missing
`src/get_changed_ranges.c`): walk two trees in lockstep; identical
subtrees are skipped in O(1); nodes that agree on symbol, flags and
child count are descended into child by child; anything else
contributes one changed byte range. -/
def getChangedRanges (start : Nat) : Subtree → Subtree → List (Nat × Nat)
  | a, b =>
    if a = b then []
    else
      match a, b with
      | .node s f cs, .node s' f' cs' =>
        if s = s' ∧ f = f' ∧ cs.length = cs'.length then
          changedRangesList start cs cs'
        else [(start, start + max a.span b.span)]
      | a, b => [(start, start + max a.span b.span)]

/-- Lockstep child walk of `getChangedRanges`, advancing the byte
offset by each old child's span. -/
def changedRangesList (start : Nat) : List Subtree → List Subtree → List (Nat × Nat)
  | c :: cs, d :: ds =>
    getChangedRanges start c d ++ changedRangesList (start + c.span) cs ds
  | _, _ => []

end

/-- Modelled from the spec: a TreeCursor (§4.6, missing
`src/tree_cursor.c`) — a path of sibling-index frames from the root to
the current node, stored deepest frame first; purely navigational. -/
structure TreeCursor where
  root : Subtree
  path : List Nat
deriving DecidableEq

/-- Node reached from `t` by following child indices (root-first
order); `none` when an index is out of range. -/
def nodeAtPath : Subtree → List Nat → Option Subtree
  | t, [] => some t
  | t, i :: rest =>
    match (Subtree.childrenOf t).get? i with
    | some c => nodeAtPath c rest
    | none => none

/-- The cursor's current node. -/
def TreeCursor.current (c : TreeCursor) : Option Subtree :=
  nodeAtPath c.root c.path.reverse

/-- Modelled from the spec: `goto_parent` (§4.6): pop the deepest
frame; at the root the move fails (NoMove) and the position is
unchanged.  The Bool reports whether the cursor moved. -/
def goto_parent (c : TreeCursor) : TreeCursor × Bool :=
  match c.path with
  | [] => (c, false)
  | _ :: rest => (⟨c.root, rest⟩, true)

/-- Modelled from the spec: `goto_first_child` (§4.6): push a frame for
child 0; on a leaf (no children) the move fails (NoMove) and the
position is unchanged. -/
def goto_first_child (c : TreeCursor) : TreeCursor × Bool :=
  match c.current with
  | some t => if (Subtree.childrenOf t).length = 0 then (c, false)
              else (⟨c.root, 0 :: c.path⟩, true)
  | none => (c, false)

/-- Modelled from the spec: `goto_next_sibling` (§4.6): bump the
deepest frame's sibling index; on the last child (or at the root) the
move fails (NoMove) and the position is unchanged. -/
def goto_next_sibling (c : TreeCursor) : TreeCursor × Bool :=
  match c.path with
  | [] => (c, false)
  | i :: rest =>
    match nodeAtPath c.root rest.reverse with
    | some p =>
      if i + 1 < (Subtree.childrenOf p).length then (⟨c.root, (i + 1) :: rest⟩, true)
      else (c, false)
    | none => (c, false)

/-- Repeats `goto_next_sibling` until it fails (fuel-bounded loop). -/
def siblingLoop : Nat → TreeCursor → TreeCursor
  | 0, c => c
  | fuel + 1, c =>
    let r := goto_next_sibling c
    if r.2 then siblingLoop fuel r.1 else c

/-- Repeats `goto_parent` until it fails (fuel-bounded loop). -/
def parentLoop : Nat → TreeCursor → TreeCursor
  | 0, c => c
  | fuel + 1, c =>
    let r := goto_parent c
    if r.2 then parentLoop fuel r.1 else c

/-- The round-trip procedure of the claim: `goto_first_child`, then
`goto_next_sibling` until it fails, then `goto_parent` until it
fails. -/
def roundTrip (fuel : Nat) (c : TreeCursor) : TreeCursor :=
  parentLoop fuel (siblingLoop fuel (goto_first_child c).1)

/-- Modelled from the spec: one step of a compiled Query (§4.7, missing
`src/query.c`): a symbol constraint on a child, optionally capturing
it under a capture id. -/
structure QueryStep where
  stepSym : Nat
  captureId : Option Nat
deriving DecidableEq

/-- Modelled from the spec: a compiled Query (§3, §4.7) — an ordered
step sequence over the children of a node whose symbol matches
`patSym`, plus a capture-name table size. -/
structure Query where
  patSym : Nat
  steps : List QueryStep
  captureCount : Nat
deriving DecidableEq

/-- Modelled from the spec: a QueryMatch (§3) — the matched node's
symbol together with the mapping from capture id to captured node. -/
structure QueryMatch where
  matchedSym : Nat
  captures : List (Nat × Subtree)
deriving DecidableEq

/-- Do the steps match a prefix of the child list? -/
def stepsMatch : List QueryStep → List Subtree → Bool
  | [], _ => true
  | _ :: _, [] => false
  | st :: sts, c :: cs => (tokSym c == st.stepSym) && stepsMatch sts cs

/-- Captures extracted from a successful step match. -/
def collectCaptures : List QueryStep → List Subtree → List (Nat × Subtree)
  | st :: sts, c :: cs =>
    (match st.captureId with
     | some id => [(id, c)]
     | none => []) ++ collectCaptures sts cs
  | _, _ => []

/-- Does the Query's pattern match at this node? -/
def nodeMatches (q : Query) (t : Subtree) : Bool :=
  (tokSym t == q.patSym) && stepsMatch q.steps (Subtree.childrenOf t)

/-- Modelled from the spec: Query execution (§4.7, §9, missing
`src/query.c`): a depth-first walk in document order driven by an
explicit frontier stack, each visited node consuming one unit of the
step-count budget; returns the matches in document order together with
the number of steps performed. -/
def queryRun (q : Query) : Nat → List Subtree → List QueryMatch × Nat
  | 0, _ => ([], 0)
  | _, [] => ([], 0)
  | fuel + 1, t :: rest =>
    let r := queryRun q fuel (Subtree.childrenOf t ++ rest)
    (if nodeMatches q t then
       ⟨tokSym t, collectCaptures q.steps (Subtree.childrenOf t)⟩ :: r.1
     else r.1,
     r.2 + 1)

/-- Modelled from the spec: `QueryCursor.matches(query, node, budget)`
(§6): bounded depth-first backtracking execution rooted at `t`. -/
def execQuery (q : Query) (t : Subtree) (budget : Nat) : List QueryMatch × Nat :=
  queryRun q budget [t]

/-- Modelled from the spec: a StackVersion (§3, missing `src/stack.c`)
— one candidate parse state, with its accumulated error cost, its
creation index, and whether it has reached the ACCEPT state. -/
structure StackVersion where
  state : Nat
  cost : Nat
  created : Nat
  accepted : Bool
deriving DecidableEq

/-- One round-robin round: every live version is advanced once (§4.4). -/
def advanceRound (f : StackVersion → StackVersion) (vs : List StackVersion) :
    List StackVersion :=
  vs.map f

/-- Count of versions that have reached ACCEPT. -/
def countAccepted (vs : List StackVersion) : Nat :=
  (vs.filter (fun v => v.accepted)).length

/-- Modelled from the spec: the main loop advances all live versions
round-robin until exactly one reaches ACCEPT or the input (fuel) is
exhausted (§4.4). -/
def runVersions (f : StackVersion → StackVersion) : Nat → List StackVersion → List StackVersion
  | 0, vs => vs
  | fuel + 1, vs =>
    if countAccepted vs = 1 then vs
    else runVersions f fuel (advanceRound f vs)

/-- The better of two accepted versions: lower accumulated error cost
wins; on equal cost the earlier-created version wins (§4.4). -/
def betterVersion (a b : StackVersion) : StackVersion :=
  if a.cost < b.cost then a
  else if b.cost < a.cost then b
  else if a.created ≤ b.created then a
  else b

/-- Modelled from the spec: selection of the parse result among the
versions that reached ACCEPT (§4.4): lowest accumulated error cost,
ties broken by earliest creation; `none` when no version accepted. -/
def selectVersion : List StackVersion → Option StackVersion
  | [] => none
  | v :: vs =>
    match selectVersion vs with
    | none => if v.accepted then some v else none
    | some w => if v.accepted then some (betterVersion v w) else some w

/-- Modelled from the spec: the opaque grammar descriptor type
`TSLanguage` of the per-language headers (§6); only read accessors are
exposed. -/
structure TSLanguage where
  symbolCount : Nat
  stateCount : Nat
deriving DecidableEq

/-- Modelled from the spec: the fixed, immutable JavaScript grammar
descriptor (§3: Grammar loaded once, read-only for the process's
life). -/
def jsLanguageDescriptor : TSLanguage := ⟨300, 1200⟩

/-- Modelled from the spec: the fixed, immutable Python grammar
descriptor. -/
def pyLanguageDescriptor : TSLanguage := ⟨250, 900⟩

/-- Modelled from the spec: the entry point declared by
`Sources/TreeSitterJavaScript/include/tree_sitter/javascript.h` — a
zero-argument function returning the process-wide immutable JavaScript
grammar descriptor. -/
def tree_sitter_javascript : Unit → TSLanguage :=
  fun _ => jsLanguageDescriptor

/-- Modelled from the spec: the entry point declared by
`Sources/TreeSitterLanguages/include/tree_sitter/python.h` — a
zero-argument function returning the process-wide immutable Python
grammar descriptor. -/
def tree_sitter_python : Unit → TSLanguage :=
  fun _ => pyLanguageDescriptor

/-- Absolute byte intervals of the children of a node starting at
`start`: each child occupies `[s, s + span)` and the next child starts
where the previous one ends (§3 span invariant). -/
def childIntervals (start : Nat) : List Subtree → List (Nat × Nat)
  | [] => []
  | c :: cs => (start, start + c.span) :: childIntervals (start + c.span) cs

mutual

/-- All Subtrees occurring in a Subtree (itself included), used to
state tree-wide invariants. -/
def Subtree.subnodes : Subtree → List Subtree
  | .leaf s l f => [.leaf s l f]
  | .node s f cs => .node s f cs :: subnodesList cs

/-- All Subtrees occurring in a list of Subtrees. -/
def subnodesList : List Subtree → List Subtree
  | [] => []
  | c :: cs => Subtree.subnodes c ++ subnodesList cs

end

/-- A concrete Grammar implementing the spec's §8 scenario grammar
`sum := NUMBER (PLUS NUMBER)*`: digit bytes lex to NUMBER (symbol 1),
the `+` byte to PLUS (symbol 2), everything else is unrecognized. -/
def sumGrammar : Grammar where
  lexClass b := if 48 ≤ b ∧ b ≤ 57 then 1 else if b = 43 then 2 else 0
  validSym s := s == 1 || s == 2
  action st sym :=
    if st = 0 ∧ sym = 1 then .shift 1
    else if st = 1 ∧ sym = 2 then .shift 2
    else if st = 2 ∧ sym = 1 then .shift 1
    else .reject
  startState := 0
  rootSym := 7

/-! ### Helper lemmas about spans, tokens and the parse stack -/

/-- Total span of the Subtrees on a parse stack. -/
def stackSpan (stk : List (Subtree × Nat)) : Nat :=
  spanList (stk.map Prod.fst)

/-- Lexed tokens recorded on a parse stack, in input order. -/
def stackTokens (stk : List (Subtree × Nat)) : List Subtree :=
  leafTokensList ((stk.map Prod.fst).reverse)

/-- A token in the shape produced by the Lexer: one byte long, not yet
flagged extra or missing. -/
def IsLexToken (tok : Subtree) : Prop :=
  ∃ s e, tok = Subtree.leaf s 1 ⟨e, false, false⟩

theorem isLexToken_lexByte (g : Grammar) (b : Nat) : IsLexToken (lexByte g b) :=
  ⟨_, _, rfl⟩

theorem spanList_append (as bs : List Subtree) :
    spanList (as ++ bs) = spanList as + spanList bs := by
  induction as with
  | nil => simp [spanList]
  | cons a as ih => simp [spanList, ih]; omega

theorem spanList_reverse (as : List Subtree) : spanList as.reverse = spanList as := by
  induction as with
  | nil => rfl
  | cons a as ih => simp [spanList, spanList_append, ih]; omega

theorem leafTokensList_append (as bs : List Subtree) :
    leafTokensList (as ++ bs) = leafTokensList as ++ leafTokensList bs := by
  induction as with
  | nil => rfl
  | cons a as ih => simp [leafTokensList, ih]

theorem span_markExtra (t : Subtree) : (markExtra t).span = t.span := by
  cases t <;> rfl

theorem span_of_lexToken {tok : Subtree} (h : IsLexToken tok) : tok.span = 1 := by
  obtain ⟨s, e, rfl⟩ := h; rfl

theorem leafTokens_of_lexToken {tok : Subtree} (h : IsLexToken tok) :
    tok.leafTokens = [tok] := by
  obtain ⟨s, e, rfl⟩ := h; rfl

theorem leafTokens_markExtra_of_lexToken {tok : Subtree} (h : IsLexToken tok) :
    (markExtra tok).leafTokens = [tok] := by
  obtain ⟨s, e, rfl⟩ := h; rfl

theorem spanList_lexText (g : Grammar) (text : List Nat) :
    spanList (lexText g text) = text.length := by
  induction text with
  | nil => rfl
  | cons b bs ih =>
    simp only [lexText, List.map] at ih ⊢
    simp [spanList, lexByte, Subtree.span, ih]
    omega

theorem isLexToken_of_mem_lexText {g : Grammar} {text : List Nat} {tok : Subtree}
    (h : tok ∈ lexText g text) : IsLexToken tok := by
  simp only [lexText, List.mem_map] at h
  obtain ⟨b, _, rfl⟩ := h
  exact isLexToken_lexByte g b

theorem stackSpan_cons (x : Subtree × Nat) (stk : List (Subtree × Nat)) :
    stackSpan (x :: stk) = x.1.span + stackSpan stk := rfl

theorem stackTokens_cons (x : Subtree × Nat) (stk : List (Subtree × Nat)) :
    stackTokens (x :: stk) = stackTokens stk ++ x.1.leafTokens := by
  simp [stackTokens, leafTokensList_append, leafTokensList]

theorem stackSpan_reduce (sym next : Nat) (f : TokenFlags) (k : Nat)
    (stk : List (Subtree × Nat)) :
    stackSpan ((Subtree.node sym f (((stk.take k).map Prod.fst).reverse), next)
      :: stk.drop k) = stackSpan stk := by
  rw [stackSpan_cons]
  show Subtree.span (.node sym f _) + stackSpan (stk.drop k) = _
  rw [show Subtree.span (.node sym f (((stk.take k).map Prod.fst).reverse))
        = spanList (((stk.take k).map Prod.fst).reverse) from rfl,
      spanList_reverse]
  unfold stackSpan
  rw [← spanList_append, ← List.map_append, List.take_append_drop]

theorem stackTokens_reduce (sym next : Nat) (f : TokenFlags) (k : Nat)
    (stk : List (Subtree × Nat)) :
    stackTokens ((Subtree.node sym f (((stk.take k).map Prod.fst).reverse), next)
      :: stk.drop k) = stackTokens stk := by
  rw [stackTokens_cons]
  show stackTokens (stk.drop k)
      ++ Subtree.leafTokens (.node sym f (((stk.take k).map Prod.fst).reverse)) = _
  rw [show Subtree.leafTokens (.node sym f (((stk.take k).map Prod.fst).reverse))
        = leafTokensList (((stk.take k).map Prod.fst).reverse) from rfl]
  unfold stackTokens
  rw [← leafTokensList_append, ← List.reverse_append, ← List.map_append,
      List.take_append_drop]

theorem applyReductions_span (g : Grammar) :
    ∀ (fuel : Nat) (stk : List (Subtree × Nat)) (look : Nat),
      stackSpan (applyReductions g fuel stk look) = stackSpan stk
  | 0, stk, look => rfl
  | fuel + 1, stk, look => by
    unfold applyReductions
    cases g.action (curState g stk) look with
    | reduce sym k next =>
      simp only
      split
      · rw [applyReductions_span g fuel, stackSpan_reduce]
      · rfl
    | shift n => rfl
    | reject => rfl

theorem applyReductions_tokens (g : Grammar) :
    ∀ (fuel : Nat) (stk : List (Subtree × Nat)) (look : Nat),
      stackTokens (applyReductions g fuel stk look) = stackTokens stk
  | 0, stk, look => rfl
  | fuel + 1, stk, look => by
    unfold applyReductions
    cases g.action (curState g stk) look with
    | reduce sym k next =>
      simp only
      split
      · rw [applyReductions_tokens g fuel, stackTokens_reduce]
      · rfl
    | shift n => rfl
    | reject => rfl

theorem parseRun_span (g : Grammar) :
    ∀ (toks : List Subtree) (stk : List (Subtree × Nat)),
      stackSpan (parseRun g toks stk) = stackSpan stk + spanList toks
  | [], stk => by simp [parseRun, spanList]
  | tok :: rest, stk => by
    simp only [parseRun]
    cases g.action
        (curState g (applyReductions g (stk.length + 1) stk (tokSym tok)))
        (tokSym tok) with
    | shift n =>
      rw [parseRun_span g rest, stackSpan_cons, applyReductions_span g]
      simp [spanList]; omega
    | reduce sym k next =>
      rw [parseRun_span g rest, stackSpan_cons, span_markExtra, applyReductions_span g]
      simp [spanList]; omega
    | reject =>
      rw [parseRun_span g rest, stackSpan_cons, span_markExtra, applyReductions_span g]
      simp [spanList]; omega

theorem parseRun_tokens (g : Grammar) :
    ∀ (toks : List Subtree) (stk : List (Subtree × Nat)),
      (∀ tok ∈ toks, IsLexToken tok) →
      stackTokens (parseRun g toks stk) = stackTokens stk ++ toks
  | [], stk, _ => by simp [parseRun]
  | tok :: rest, stk, h => by
    have htok : IsLexToken tok := h tok (List.mem_cons_self _ _)
    have hrest : ∀ t ∈ rest, IsLexToken t := fun t ht => h t (List.mem_cons_of_mem _ ht)
    simp only [parseRun]
    cases g.action
        (curState g (applyReductions g (stk.length + 1) stk (tokSym tok)))
        (tokSym tok) with
    | shift n =>
      rw [parseRun_tokens g rest _ hrest, stackTokens_cons,
        leafTokens_of_lexToken htok, applyReductions_tokens g]
      simp
    | reduce sym k next =>
      rw [parseRun_tokens g rest _ hrest, stackTokens_cons,
        leafTokens_markExtra_of_lexToken htok, applyReductions_tokens g]
      simp
    | reject =>
      rw [parseRun_tokens g rest _ hrest, stackTokens_cons,
        leafTokens_markExtra_of_lexToken htok, applyReductions_tokens g]
      simp

theorem parseSteps_none (g : Grammar) :
    ∀ (toks : List Subtree) (stk : List (Subtree × Nat)),
      parseSteps g none toks stk = .ok (parseRun g toks stk)
  | [], stk => rfl
  | tok :: rest, stk => by
    simp only [parseSteps, parseRun, Option.map]
    cases g.action
        (curState g (applyReductions g (stk.length + 1) stk (tokSym tok)))
        (tokSym tok) with
    | shift n => exact parseSteps_none g rest _
    | reduce sym k next => exact parseSteps_none g rest _
    | reject => exact parseSteps_none g rest _

theorem parseSteps_some_lt (g : Grammar) :
    ∀ (toks : List Subtree) (stk : List (Subtree × Nat)) (b : Nat),
      b < toks.length → parseSteps g (some b) toks stk = .error .cancelled
  | [], _, b, h => absurd h (by simp)
  | tok :: rest, stk, 0, _ => rfl
  | tok :: rest, stk, b + 1, h => by
    simp only [parseSteps, Option.map, Nat.add_sub_cancel]
    cases g.action
        (curState g (applyReductions g (stk.length + 1) stk (tokSym tok)))
        (tokSym tok) with
    | shift n => exact parseSteps_some_lt g rest _ b (by simp at h; omega)
    | reduce sym k next => exact parseSteps_some_lt g rest _ b (by simp at h; omega)
    | reject => exact parseSteps_some_lt g rest _ b (by simp at h; omega)

theorem parseSteps_some_ge (g : Grammar) :
    ∀ (toks : List Subtree) (stk : List (Subtree × Nat)) (b : Nat),
      toks.length ≤ b →
      parseSteps g (some b) toks stk = .ok (parseRun g toks stk)
  | [], _, b, _ => by simp [parseSteps, parseRun]
  | tok :: rest, stk, 0, h => absurd h (by simp)
  | tok :: rest, stk, b + 1, h => by
    simp only [parseSteps, parseRun, Option.map, Nat.add_sub_cancel]
    cases g.action
        (curState g (applyReductions g (stk.length + 1) stk (tokSym tok)))
        (tokSym tok) with
    | shift n => exact parseSteps_some_ge g rest _ b (by simp at h; omega)
    | reduce sym k next => exact parseSteps_some_ge g rest _ b (by simp at h; omega)
    | reject => exact parseSteps_some_ge g rest _ b (by simp at h; omega)

theorem parse_none_eq (g : Grammar) (text : List Nat) :
    parse g text none
      = .ok ⟨finishStack g (parseRun g (lexText g text) []), text.length⟩ := by
  simp [parse, parseSteps_none, Except.map]

theorem parse_leafTokens (g : Grammar) (text : List Nat) (t : Tree)
    (h : parse g text none = .ok t) : t.root.leafTokens = lexText g text := by
  rw [parse_none_eq] at h
  injection h with h
  subst h
  show leafTokensList ((((parseRun g (lexText g text) []).map Prod.fst).reverse)) = _
  rw [show leafTokensList ((((parseRun g (lexText g text) []).map Prod.fst).reverse))
        = stackTokens (parseRun g (lexText g text) []) from rfl]
  rw [parseRun_tokens g _ _ (fun tok ht => isLexToken_of_mem_lexText ht)]
  rfl

theorem childIntervals_chain :
    ∀ (cs : List Subtree) (start : Nat),
      List.Chain' (fun a b : Nat × Nat => a.2 = b.1) (childIntervals start cs)
  | [], _ => List.chain'_nil
  | [c], start => by simp [childIntervals]
  | c :: d :: cs, start => by
    have h := childIntervals_chain (d :: cs) (start + c.span)
    simp only [childIntervals] at h ⊢
    exact List.Chain'.cons rfl h

theorem childIntervals_bounds :
    ∀ (cs : List Subtree) (start : Nat) (p : Nat × Nat),
      p ∈ childIntervals start cs →
      p.1 ≤ p.2 ∧ start ≤ p.1 ∧ p.2 ≤ start + spanList cs
  | [], _, p, h => absurd h (by simp [childIntervals])
  | c :: cs, start, p, h => by
    simp only [childIntervals, List.mem_cons] at h
    rcases h with rfl | h
    · simp only [spanList]; omega
    · have := childIntervals_bounds cs (start + c.span) p h
      simp only [spanList]
      omega

/-! ### Claim theorems -/

/-- Claim C1: for every input byte sequence, `parse` with no cancellation
budget returns a Tree; the only failure `parse` can return is
Cancelled, raised exactly when the operation-count budget is smaller
than the input; with a sufficient budget a Tree is returned; and an
unrecognized byte is surfaced as an error-flagged token (data), not as
a failure. -/
theorem parse_never_fails (g : Grammar) (text : List Nat) :
    (∃ t : Tree, parse g text none = .ok t) ∧
    (∀ (bud : Option Nat) (e : Cancelled), parse g text bud = .error e → e = .cancelled) ∧
    (∀ b : Nat, b < text.length → parse g text (some b) = .error .cancelled) ∧
    (∀ b : Nat, text.length ≤ b → ∃ t : Tree, parse g text (some b) = .ok t) ∧
    (∀ b : Nat, g.validSym (g.lexClass b) = false →
      lexByte g b = Subtree.leaf (g.lexClass b) 1 ⟨true, false, false⟩) := by
  refine ⟨⟨_, parse_none_eq g text⟩, ?_, ?_, ?_, ?_⟩
  · intro bud e _
    cases e
    rfl
  · intro b h
    have hlen : b < (lexText g text).length := by simpa [lexText] using h
    simp [parse, parseSteps_some_lt g _ _ b hlen, Except.map]
  · intro b h
    have hlen : (lexText g text).length ≤ b := by simpa [lexText] using h
    refine ⟨⟨finishStack g (parseRun g (lexText g text) []), text.length⟩, ?_⟩
    simp [parse, parseSteps_some_ge g _ _ b hlen, Except.map]
  · intro b h
    simp [lexByte, h]

/-- Claim C1 witness: on the concrete scenario grammar and the input
`"1+2"`, a budget-free parse succeeds, a budget of 2 is exceeded and
cancelled, and a budget of 5 suffices. -/
theorem parse_never_fails_witness :
    (∃ t : Tree, parse sumGrammar [49, 43, 50] none = .ok t) ∧
    parse sumGrammar [49, 43, 50] (some 2) = .error .cancelled ∧
    (∃ t : Tree, parse sumGrammar [49, 43, 50] (some 5) = .ok t) :=
  ⟨(parse_never_fails sumGrammar [49, 43, 50]).1,
   (parse_never_fails sumGrammar [49, 43, 50]).2.2.1 2 (by decide),
   (parse_never_fails sumGrammar [49, 43, 50]).2.2.2.1 5 (by decide)⟩

/-- Claim C2: for every Tree returned by a (budget-free) parse of text `S`,
the root's byte span equals the length of `S`; every node's span is the
sum of its children's spans; and the absolute byte intervals of the
children of any node in the tree are ordered, contiguous,
non-overlapping, and contained in the parent's span. -/
theorem parse_tree_invariants (g : Grammar) (text : List Nat) (t : Tree)
    (h : parse g text none = .ok t) :
    t.root.span = text.length ∧ t.sourceLen = text.length ∧
    (∀ (sym : Nat) (f : TokenFlags) (cs : List Subtree),
      Subtree.node sym f cs ∈ t.root.subnodes →
      ∀ start : Nat,
        (Subtree.node sym f cs).span = spanList cs ∧
        List.Chain' (fun a b : Nat × Nat => a.2 = b.1) (childIntervals start cs) ∧
        (∀ p ∈ childIntervals start cs,
          p.1 ≤ p.2 ∧ start ≤ p.1 ∧ p.2 ≤ start + (Subtree.node sym f cs).span)) := by
  rw [parse_none_eq] at h
  injection h with h
  subst h
  refine ⟨?_, rfl, ?_⟩
  · show spanList (((parseRun g (lexText g text) []).map Prod.fst).reverse) = _
    rw [spanList_reverse]
    rw [show spanList ((parseRun g (lexText g text) []).map Prod.fst)
          = stackSpan (parseRun g (lexText g text) []) from rfl]
    rw [parseRun_span g]
    simp [stackSpan, spanList, spanList_lexText]
  · intro sym f cs _ start
    refine ⟨rfl, childIntervals_chain cs start, ?_⟩
    intro p hp
    have := childIntervals_bounds cs start p hp
    exact ⟨this.1, this.2.1, by simpa [Subtree.span] using this.2.2⟩

/-- Claim C2 witness: the invariants instantiated on the parse of `"1+2"`
under the scenario grammar. -/
theorem parse_tree_invariants_witness :
    parse sumGrammar [49, 43, 50] none
      = .ok ⟨Subtree.node 7 ⟨false, false, false⟩
          [Subtree.leaf 1 1 ⟨false, false, false⟩,
           Subtree.leaf 2 1 ⟨false, false, false⟩,
           Subtree.leaf 1 1 ⟨false, false, false⟩], 3⟩ ∧
    (Subtree.node 7 ⟨false, false, false⟩
          [Subtree.leaf 1 1 ⟨false, false, false⟩,
           Subtree.leaf 2 1 ⟨false, false, false⟩,
           Subtree.leaf 1 1 ⟨false, false, false⟩] : Subtree).span = 3 :=
  ⟨rfl, (parse_tree_invariants sumGrammar [49, 43, 50] _ rfl).1⟩

/-- Claim C3: incremental equivalence — re-parsing the edited text with the
previous Tree and the Edit yields exactly the Tree a from-scratch parse
of the new text yields. -/
theorem incremental_parse_equiv (g : Grammar) (oldText mid newText : List Nat)
    (e : Edit) (prev : Tree)
    (hP : parse g oldText none = .ok prev)
    (hs : e.startByte ≤ e.oldEndByte)
    (he : e.oldEndByte ≤ oldText.length)
    (hnew : newText = oldText.take e.startByte ++ mid ++ oldText.drop e.oldEndByte)
    (hne : e.newEndByte = e.startByte + mid.length) :
    incrementalParse g newText prev e = parse g newText none := by
  have htoks := parse_leafTokens g oldText prev hP
  have hlen : prev.sourceLen = oldText.length := by
    rw [parse_none_eq] at hP
    injection hP with hP
    rw [← hP]
  have hsl : e.startByte ≤ oldText.length := le_trans hs he
  -- the reused prefix tokens are the lex of the old (= new) prefix
  have hpre : prev.root.leafTokens.take e.startByte
      = lexText g (oldText.take e.startByte) := by
    rw [htoks, lexText, lexText, List.map_take]
  have hsuf : prev.root.leafTokens.drop e.oldEndByte
      = lexText g (oldText.drop e.oldEndByte) := by
    rw [htoks, lexText, lexText, List.map_drop]
  -- the freshly lexed bytes are exactly the edited slice
  have hdrop : newText.drop e.startByte = mid ++ oldText.drop e.oldEndByte := by
    rw [hnew, List.append_assoc]
    set l1 := oldText.take e.startByte with hl1
    have h1 : l1.length = e.startByte := by
      rw [hl1]; simp [List.length_take, Nat.min_eq_left hsl]
    rw [← h1]
    simp
  have hmidtake : (newText.drop e.startByte).take (e.newEndByte - e.startByte) = mid := by
    rw [hdrop, hne, Nat.add_sub_cancel_left]
    simp
  -- both runs therefore see the same token sequence
  have hcomb : prev.root.leafTokens.take e.startByte
        ++ lexText g ((newText.drop e.startByte).take (e.newEndByte - e.startByte))
        ++ prev.root.leafTokens.drop e.oldEndByte
      = lexText g newText := by
    rw [hpre, hsuf, hmidtake, hnew]
    simp [lexText]
  -- and the patched source length is the new text's length
  have hlen2 : prev.sourceLen - (e.oldEndByte - e.startByte)
        + (e.newEndByte - e.startByte) = newText.length := by
    rw [hlen, hnew, hne]
    simp [List.length_append, List.length_take, List.length_drop,
      Nat.min_eq_left hsl]
    omega
  rw [incrementalParse, hcomb, hlen2, parse, parseSteps_none]

/-- Claim C3 witness: prepending `"9"` to `"1+2"` (edit at byte 0) and
re-parsing incrementally equals the from-scratch parse of `"91+2"`. -/
theorem incremental_parse_equiv_witness :
    parse sumGrammar [49, 43, 50] none
      = .ok ⟨Subtree.node 7 ⟨false, false, false⟩
          [Subtree.leaf 1 1 ⟨false, false, false⟩,
           Subtree.leaf 2 1 ⟨false, false, false⟩,
           Subtree.leaf 1 1 ⟨false, false, false⟩], 3⟩ ∧
    (0 : Nat) ≤ 0 ∧ (0 : Nat) ≤ 3 ∧
    ([57, 49, 43, 50] : List Nat)
      = List.take 0 [49, 43, 50] ++ [57] ++ List.drop 0 [49, 43, 50] ∧
    (1 : Nat) = 0 + List.length [57] ∧
    incrementalParse sumGrammar [57, 49, 43, 50]
        ⟨Subtree.node 7 ⟨false, false, false⟩
          [Subtree.leaf 1 1 ⟨false, false, false⟩,
           Subtree.leaf 2 1 ⟨false, false, false⟩,
           Subtree.leaf 1 1 ⟨false, false, false⟩], 3⟩ ⟨0, 0, 1⟩
      = parse sumGrammar [57, 49, 43, 50] none :=
  ⟨rfl, by decide, by decide, by decide, by decide,
   incremental_parse_equiv sumGrammar [49, 43, 50] [57] [57, 49, 43, 50]
     ⟨0, 0, 1⟩ _ rfl (by decide) (by decide) (by decide) (by decide)⟩

theorem getChangedRanges_self (start : Nat) (a : Subtree) :
    getChangedRanges start a a = [] := by
  cases a with
  | leaf s l f =>
    rw [getChangedRanges, if_pos rfl]
    exact fun _ _ _ _ _ _ h _ => Subtree.noConfusion h
  | node s f cs => rw [getChangedRanges, if_pos rfl]

/-- Claim C4: parsing the same text twice yields trees whose changed-range
diff is empty. -/
theorem changed_ranges_idempotent (g : Grammar) (text : List Nat) (t t2 : Tree)
    (h1 : parse g text none = .ok t) (h2 : parse g text none = .ok t2) :
    getChangedRanges 0 t.root t2.root = [] := by
  rw [h1] at h2
  injection h2 with h2
  subst h2
  exact getChangedRanges_self 0 t.root

/-- Claim C4 witness: two parses of `"1"` have an empty changed-range diff. -/
theorem changed_ranges_idempotent_witness :
    parse sumGrammar [49] none
      = .ok ⟨Subtree.node 7 ⟨false, false, false⟩
          [Subtree.leaf 1 1 ⟨false, false, false⟩], 1⟩ ∧
    getChangedRanges 0
      (Subtree.node 7 ⟨false, false, false⟩ [Subtree.leaf 1 1 ⟨false, false, false⟩])
      (Subtree.node 7 ⟨false, false, false⟩ [Subtree.leaf 1 1 ⟨false, false, false⟩])
      = [] :=
  ⟨rfl, changed_ranges_idempotent sumGrammar [49] _ _ rfl rfl⟩

/-! ### Cursor lemmas and claims -/

theorem siblingLoop_to_last (root : Subtree) (rest : List Nat) (p : Subtree)
    (hp : nodeAtPath root rest.reverse = some p) :
    ∀ (fuel i : Nat), i < (Subtree.childrenOf p).length →
      (Subtree.childrenOf p).length - 1 - i ≤ fuel →
      siblingLoop fuel ⟨root, i :: rest⟩
        = ⟨root, ((Subtree.childrenOf p).length - 1) :: rest⟩
  | 0, i, hi, hfu => by
    have : i = (Subtree.childrenOf p).length - 1 := by omega
    subst this
    rfl
  | fuel + 1, i, hi, hfu => by
    simp only [siblingLoop, goto_next_sibling, hp]
    by_cases hlt : i + 1 < (Subtree.childrenOf p).length
    · simp only [hlt, if_true]
      exact siblingLoop_to_last root rest p hp fuel (i + 1) hlt (by omega)
    · have : i = (Subtree.childrenOf p).length - 1 := by omega
      subst this
      simp [hlt]

theorem parentLoop_to_root :
    ∀ (fuel : Nat) (c : TreeCursor), c.path.length ≤ fuel →
      (parentLoop fuel c).path = [] ∧ (parentLoop fuel c).root = c.root
  | 0, ⟨root, []⟩, _ => ⟨rfl, rfl⟩
  | 0, ⟨root, i :: rest⟩, h => absurd h (by simp)
  | fuel + 1, ⟨root, []⟩, _ => by simp [parentLoop, goto_parent]
  | fuel + 1, ⟨root, i :: rest⟩, h => by
    simp only [parentLoop, goto_parent, if_true]
    exact parentLoop_to_root fuel ⟨root, rest⟩ (by simp at h ⊢; omega)

/-- Claim C5 counterexample: in the concrete two-level tree, starting from
the cursor at the depth-1 node (path `[0]`), the procedure
`goto_first_child`; `goto_next_sibling` until failure; `goto_parent`
until failure ends at the root (path `[]`), not at the original
node. -/
theorem roundTrip_ends_at_root_cex :
    (roundTrip 9 ⟨Subtree.node 0 ⟨false, false, false⟩
        [Subtree.node 1 ⟨false, false, false⟩ [Subtree.leaf 2 1 ⟨false, false, false⟩]],
        [0]⟩).path = [] ∧
    (roundTrip 9 ⟨Subtree.node 0 ⟨false, false, false⟩
        [Subtree.node 1 ⟨false, false, false⟩ [Subtree.leaf 2 1 ⟨false, false, false⟩]],
        [0]⟩).path ≠ [0] := by
  decide

/-- Claim C5 (amended): from a cursor on a node with at least one child,
`goto_first_child`, then `goto_next_sibling` repeated until it fails,
then a SINGLE `goto_parent` returns to the original node (and that
`goto_parent` succeeds); repeating `goto_parent` until failure instead
ends at the root. -/
theorem cursor_round_trip (c : TreeCursor) (t : Subtree) (fuel : Nat)
    (h : c.current = some t)
    (hc : 0 < (Subtree.childrenOf t).length)
    (hf1 : (Subtree.childrenOf t).length ≤ fuel)
    (hf2 : c.path.length + 1 ≤ fuel) :
    (goto_parent (siblingLoop fuel (goto_first_child c).1)).1 = c ∧
    (goto_parent (siblingLoop fuel (goto_first_child c).1)).2 = true ∧
    (roundTrip fuel c).path = [] := by
  obtain ⟨root, path⟩ := c
  have hp : nodeAtPath root path.reverse = some t := h
  have hf2' : path.length + 1 ≤ fuel := by simpa using hf2
  have hfc : (goto_first_child ⟨root, path⟩).1 = ⟨root, 0 :: path⟩ := by
    simp only [goto_first_child, TreeCursor.current, hp]
    rw [if_neg (by omega)]
  have hsib : siblingLoop fuel ⟨root, 0 :: path⟩
      = ⟨root, ((Subtree.childrenOf t).length - 1) :: path⟩ :=
    siblingLoop_to_last root path t hp fuel 0 hc (by omega)
  refine ⟨?_, ?_, ?_⟩
  · rw [hfc, hsib]; rfl
  · rw [hfc, hsib]; rfl
  · rw [roundTrip, hfc, hsib]
    exact (parentLoop_to_root fuel _ (by simp; omega)).1

/-- Claim C5 witness: the amended round-trip on a concrete cursor over a
three-level tree. -/
theorem cursor_round_trip_witness :
    TreeCursor.current
      (TreeCursor.mk
        (Subtree.node 0 ⟨false, false, false⟩
          [Subtree.node 1 ⟨false, false, false⟩
            [Subtree.leaf 2 1 ⟨false, false, false⟩,
             Subtree.leaf 3 1 ⟨false, false, false⟩]]) [0])
      = some (Subtree.node 1 ⟨false, false, false⟩
          [Subtree.leaf 2 1 ⟨false, false, false⟩,
           Subtree.leaf 3 1 ⟨false, false, false⟩]) ∧
    (goto_parent (siblingLoop 4
      (goto_first_child
        (TreeCursor.mk
          (Subtree.node 0 ⟨false, false, false⟩
            [Subtree.node 1 ⟨false, false, false⟩
              [Subtree.leaf 2 1 ⟨false, false, false⟩,
               Subtree.leaf 3 1 ⟨false, false, false⟩]]) [0])).1)).1
      = TreeCursor.mk
          (Subtree.node 0 ⟨false, false, false⟩
            [Subtree.node 1 ⟨false, false, false⟩
              [Subtree.leaf 2 1 ⟨false, false, false⟩,
               Subtree.leaf 3 1 ⟨false, false, false⟩]]) [0] :=
  ⟨rfl,
   (cursor_round_trip
     (TreeCursor.mk
       (Subtree.node 0 ⟨false, false, false⟩
         [Subtree.node 1 ⟨false, false, false⟩
           [Subtree.leaf 2 1 ⟨false, false, false⟩,
            Subtree.leaf 3 1 ⟨false, false, false⟩]]) [0])
     (Subtree.node 1 ⟨false, false, false⟩
       [Subtree.leaf 2 1 ⟨false, false, false⟩,
        Subtree.leaf 3 1 ⟨false, false, false⟩])
     4 rfl (by decide) (by decide) (by decide)).1⟩

theorem goto_first_child_stay :
    ∀ c : TreeCursor, (goto_first_child c).2 = false → (goto_first_child c).1 = c
  | ⟨root, path⟩, h => by
    simp only [goto_first_child] at h ⊢
    cases hcur : TreeCursor.current ⟨root, path⟩ with
    | none => simp [hcur]
    | some t =>
      simp only [hcur] at h ⊢
      by_cases hz : (Subtree.childrenOf t).length = 0
      · simp [hz]
      · simp [hz] at h

theorem goto_next_sibling_stay :
    ∀ c : TreeCursor, (goto_next_sibling c).2 = false → (goto_next_sibling c).1 = c
  | ⟨root, []⟩, _ => rfl
  | ⟨root, i :: rest⟩, h => by
    simp only [goto_next_sibling] at h ⊢
    cases hnp : nodeAtPath root rest.reverse with
    | none => simp [hnp]
    | some p =>
      simp only [hnp] at h ⊢
      by_cases hlt : i + 1 < (Subtree.childrenOf p).length
      · simp [hlt] at h
      · simp [hlt]

theorem goto_parent_stay :
    ∀ c : TreeCursor, (goto_parent c).2 = false → (goto_parent c).1 = c
  | ⟨root, []⟩, _ => rfl
  | ⟨root, i :: rest⟩, h => by simp [goto_parent] at h

theorem goto_parent_fails_iff :
    ∀ c : TreeCursor, ((goto_parent c).2 = false ↔ c.path = [])
  | ⟨root, []⟩ => by simp [goto_parent]
  | ⟨root, i :: rest⟩ => by simp [goto_parent]

theorem goto_first_child_fails_iff :
    ∀ (c : TreeCursor) (t : Subtree), c.current = some t →
      ((goto_first_child c).2 = false ↔ (Subtree.childrenOf t).length = 0)
  | ⟨root, path⟩, t, hcur => by
    simp only [goto_first_child, hcur]
    by_cases hz : (Subtree.childrenOf t).length = 0
    · simp [hz]
    · simp [hz]

theorem goto_next_sibling_fails_iff :
    ∀ (c : TreeCursor) (i : Nat) (rest : List Nat) (p : Subtree),
      c.path = i :: rest → nodeAtPath c.root rest.reverse = some p →
      ((goto_next_sibling c).2 = false ↔ ¬ i + 1 < (Subtree.childrenOf p).length)
  | ⟨root, path⟩, i, rest, p, hpath, hnp => by
    cases hpath
    simp only [goto_next_sibling, hnp]
    by_cases hlt : i + 1 < (Subtree.childrenOf p).length
    · simp [hlt]
    · simp [hlt]

/-- Claim C6: each navigation operation either moves or reports NoMove
(`false`) leaving the cursor exactly as it was; and the failures happen
precisely at the boundaries — `goto_parent` at the root,
`goto_first_child` on a node with no children, `goto_next_sibling` on a
last child or at the root. -/
theorem cursor_noMove_unchanged (c : TreeCursor) :
    ((goto_first_child c).2 = false → (goto_first_child c).1 = c) ∧
    ((goto_next_sibling c).2 = false → (goto_next_sibling c).1 = c) ∧
    ((goto_parent c).2 = false → (goto_parent c).1 = c) ∧
    ((goto_parent c).2 = false ↔ c.path = []) ∧
    (∀ t : Subtree, c.current = some t →
      ((goto_first_child c).2 = false ↔ (Subtree.childrenOf t).length = 0)) ∧
    (∀ (i : Nat) (rest : List Nat) (p : Subtree),
      c.path = i :: rest → nodeAtPath c.root rest.reverse = some p →
      ((goto_next_sibling c).2 = false ↔ ¬ i + 1 < (Subtree.childrenOf p).length)) :=
  ⟨goto_first_child_stay c, goto_next_sibling_stay c, goto_parent_stay c,
   goto_parent_fails_iff c, goto_first_child_fails_iff c,
   goto_next_sibling_fails_iff c⟩

/-- Claim C6 witness: at the root of a concrete tree `goto_parent` fails and
leaves the cursor unchanged. -/
theorem cursor_noMove_unchanged_witness :
    (goto_parent ⟨Subtree.leaf 5 1 ⟨false, false, false⟩, []⟩).2 = false ∧
    (goto_parent ⟨Subtree.leaf 5 1 ⟨false, false, false⟩, []⟩).1
      = ⟨Subtree.leaf 5 1 ⟨false, false, false⟩, []⟩ :=
  ⟨by decide,
   (cursor_noMove_unchanged ⟨Subtree.leaf 5 1 ⟨false, false, false⟩, []⟩).2.2.1
     (by decide)⟩

/-! ### Query and stack-version claims -/

/-- Claim C7: two executions of the same Query against the same Tree with
the same budget yield identical ordered match sequences. -/
theorem query_exec_deterministic (q : Query) (t : Subtree) (budget : Nat)
    (r1 r2 : List QueryMatch × Nat)
    (h1 : r1 = execQuery q t budget) (h2 : r2 = execQuery q t budget) :
    r1.1 = r2.1 := by
  rw [h1, h2]

/-- Claim C7 witness: two concrete executions of a concrete Query agree. -/
theorem query_exec_deterministic_witness :
    (execQuery ⟨7, [⟨1, some 0⟩], 1⟩
        (Subtree.node 7 ⟨false, false, false⟩ [Subtree.leaf 1 1 ⟨false, false, false⟩]) 9
      = execQuery ⟨7, [⟨1, some 0⟩], 1⟩
        (Subtree.node 7 ⟨false, false, false⟩ [Subtree.leaf 1 1 ⟨false, false, false⟩]) 9) ∧
    (execQuery ⟨7, [⟨1, some 0⟩], 1⟩
        (Subtree.node 7 ⟨false, false, false⟩ [Subtree.leaf 1 1 ⟨false, false, false⟩]) 9).1
      = (execQuery ⟨7, [⟨1, some 0⟩], 1⟩
        (Subtree.node 7 ⟨false, false, false⟩ [Subtree.leaf 1 1 ⟨false, false, false⟩]) 9).1 :=
  ⟨rfl,
   query_exec_deterministic ⟨7, [⟨1, some 0⟩], 1⟩
     (Subtree.node 7 ⟨false, false, false⟩ [Subtree.leaf 1 1 ⟨false, false, false⟩]) 9
     _ _ rfl rfl⟩

theorem queryRun_steps_le (q : Query) :
    ∀ (fuel : Nat) (front : List Subtree), (queryRun q fuel front).2 ≤ fuel
  | 0, _ => by simp [queryRun]
  | fuel + 1, [] => by simp [queryRun]
  | fuel + 1, t :: rest => by
    have h := queryRun_steps_le q fuel (Subtree.childrenOf t ++ rest)
    simp only [queryRun]
    omega

/-- Claim C8: query execution is fuel-bounded — for every Query, every tree
(or any frontier of subtrees, covering subranges) and every step-count
budget, the number of steps the depth-first backtracking walk performs
is at most the budget, so match enumeration always halts. -/
theorem query_budget_bound (q : Query) (budget : Nat) :
    (∀ t : Subtree, (execQuery q t budget).2 ≤ budget) ∧
    (∀ front : List Subtree, (queryRun q budget front).2 ≤ budget) :=
  ⟨fun t => queryRun_steps_le q budget [t],
   fun front => queryRun_steps_le q budget front⟩

theorem betterVersion_spec (a b : StackVersion) :
    (betterVersion a b = a ∨ betterVersion a b = b) ∧
    (betterVersion a b).cost ≤ a.cost ∧ (betterVersion a b).cost ≤ b.cost ∧
    (a.cost = (betterVersion a b).cost → (betterVersion a b).created ≤ a.created) ∧
    (b.cost = (betterVersion a b).cost → (betterVersion a b).created ≤ b.created) := by
  unfold betterVersion
  split_ifs with h1 h2 h3
  · exact ⟨Or.inl rfl, by omega, by omega, by omega, by omega⟩
  · exact ⟨Or.inr rfl, by omega, by omega, by omega, by omega⟩
  · exact ⟨Or.inl rfl, by omega, by omega, by omega, by omega⟩
  · exact ⟨Or.inr rfl, by omega, by omega, by omega, by omega⟩

theorem selectVersion_accepted :
    ∀ (vs : List StackVersion) (v : StackVersion),
      selectVersion vs = some v → v ∈ vs ∧ v.accepted = true
  | [], v, h => by simp [selectVersion] at h
  | a :: as, v, h => by
    simp only [selectVersion] at h
    cases hs : selectVersion as with
    | none =>
      rw [hs] at h
      by_cases ha : a.accepted
      · simp only [ha, if_true] at h
        injection h with h
        subst h
        exact ⟨List.mem_cons_self _ _, ha⟩
      · simp [ha] at h
    | some w =>
      have ih := selectVersion_accepted as w hs
      rw [hs] at h
      by_cases ha : a.accepted
      · simp only [ha, if_true] at h
        injection h with h
        subst h
        rcases (betterVersion_spec a w).1 with hbv | hbv
        · rw [hbv]; exact ⟨List.mem_cons_self _ _, ha⟩
        · rw [hbv]; exact ⟨List.mem_cons_of_mem _ ih.1, ih.2⟩
      · simp only [ha, if_false] at h
        injection h with h
        subst h
        exact ⟨List.mem_cons_of_mem _ ih.1, ih.2⟩

theorem selectVersion_none :
    ∀ vs : List StackVersion,
      selectVersion vs = none → ∀ u ∈ vs, u.accepted = false
  | [], _, u, hu => absurd hu (by simp)
  | a :: as, h, u, hu => by
    simp only [selectVersion] at h
    cases hs : selectVersion as with
    | none =>
      rw [hs] at h
      by_cases ha : a.accepted
      · simp [ha] at h
      · rcases List.mem_cons.mp hu with rfl | hu
        · simpa using ha
        · exact selectVersion_none as hs u hu
    | some w =>
      rw [hs] at h
      by_cases ha : a.accepted <;> simp [ha] at h

theorem selectVersion_min :
    ∀ (vs : List StackVersion) (v : StackVersion),
      selectVersion vs = some v →
      ∀ u ∈ vs, u.accepted = true →
        v.cost ≤ u.cost ∧ (u.cost = v.cost → v.created ≤ u.created)
  | [], v, h, u, hu, _ => absurd hu (by simp)
  | a :: as, v, h, u, hu, hacc => by
    simp only [selectVersion] at h
    cases hs : selectVersion as with
    | none =>
      rw [hs] at h
      by_cases ha : a.accepted
      · simp only [ha, if_true] at h
        injection h with h
        subst h
        rcases List.mem_cons.mp hu with rfl | hu
        · exact ⟨Nat.le_refl _, fun _ => Nat.le_refl _⟩
        · exact absurd (selectVersion_none as hs u hu) (by simp [hacc])
      · simp [ha] at h
    | some w =>
      have ihw := selectVersion_min as w hs
      rw [hs] at h
      by_cases ha : a.accepted
      · simp only [ha, if_true] at h
        injection h with h
        subst h
        have hspec := betterVersion_spec a w
        rcases List.mem_cons.mp hu with rfl | hu
        · exact ⟨hspec.2.1, fun heq => hspec.2.2.2.1 heq⟩
        · have ihu := ihw u hu hacc
          refine ⟨le_trans hspec.2.2.1 ihu.1, fun heq => ?_⟩
          have hw : w.cost = (betterVersion a w).cost :=
            le_antisymm (by omega) hspec.2.2.1
          exact le_trans (hspec.2.2.2.2 hw) (ihu.2 (by omega))
      · simp only [ha, if_false] at h
        injection h with h
        subst h
        rcases List.mem_cons.mp hu with rfl | hu
        · exact absurd hacc (by simp [ha])
        · exact ihw u hu hacc

/-- Claim C9: the parse loop advances all live StackVersions round-robin
(every live version once per round) and stops as soon as exactly one
version has reached ACCEPT or the input (fuel) is exhausted; the
version selected as the parse result is an accepted live version of
lowest accumulated error cost, with ties broken by earliest
creation. -/
theorem stack_version_selection (vs : List StackVersion) (v : StackVersion)
    (h : selectVersion vs = some v) :
    v ∈ vs ∧ v.accepted = true ∧
    (∀ u ∈ vs, u.accepted = true →
      v.cost ≤ u.cost ∧ (u.cost = v.cost → v.created ≤ u.created)) ∧
    (∀ (f : StackVersion → StackVersion) (ws : List StackVersion),
      advanceRound f ws = ws.map f) ∧
    (∀ (f : StackVersion → StackVersion) (fuel : Nat),
      countAccepted vs = 1 → runVersions f (fuel + 1) vs = vs) ∧
    (∀ f : StackVersion → StackVersion, runVersions f 0 vs = vs) :=
  ⟨(selectVersion_accepted vs v h).1,
   (selectVersion_accepted vs v h).2,
   selectVersion_min vs v h,
   fun _ _ => rfl,
   fun f fuel hone => by simp [runVersions, hone],
   fun _ => rfl⟩

/-- Claim C9 witness: among three accepted versions with costs 2, 1, 1 the
selected one has cost 1 and the earlier creation index 1. -/
theorem stack_version_selection_witness :
    selectVersion [⟨5, 2, 0, true⟩, ⟨3, 1, 1, true⟩, ⟨4, 1, 2, true⟩]
      = some ⟨3, 1, 1, true⟩ ∧
    (⟨3, 1, 1, true⟩ : StackVersion) ∈
      [⟨5, 2, 0, true⟩, ⟨3, 1, 1, true⟩, ⟨4, 1, 2, true⟩] :=
  ⟨by decide,
   (stack_version_selection
     [⟨5, 2, 0, true⟩, ⟨3, 1, 1, true⟩, ⟨4, 1, 2, true⟩]
     ⟨3, 1, 1, true⟩ (by decide)).1⟩

/-- Claim C10: the grammar entry points take no meaningful argument and are
constant — any two calls return equal results, and the descriptor
obtained through them is always the fixed immutable language
descriptor, so it cannot be mutated through this interface. -/
theorem grammar_entry_points_const :
    (∀ u v : Unit, tree_sitter_javascript u = tree_sitter_javascript v) ∧
    (∀ u : Unit, tree_sitter_javascript u = jsLanguageDescriptor) ∧
    (∀ u v : Unit, tree_sitter_python u = tree_sitter_python v) ∧
    (∀ u : Unit, tree_sitter_python u = pyLanguageDescriptor) :=
  ⟨fun _ _ => rfl, fun _ => rfl, fun _ _ => rfl, fun _ => rfl⟩

end TreeSitter
